import Mathlib

/- Verification development for the obsidian-tasks-graph plugin.
   The repository has two variant implementations of the task-graph view:
   the SVG renderer (modelled in namespace `TG.Svg`, whose `processTasks`
   implements the toggle-based visibility filter, "Policy A") and the
   canvas renderer (modelled in namespace `TG.Canvas`, whose `processTasks`
   implements the reachability filter keyed on the distinguished tag
   "#want", "Policy B").  Shared data model and the line-marker extractor
   are in namespace `TG`. -/

namespace TG

/- View configuration: the toggle fields of the view class that the
   assemblers can read (showCompleted, showBlocked, showWithoutTags,
   selectedTags).  The source keeps selectedTags in a Set; we model it as
   a list with membership, which preserves all the predicates used. -/
structure ViewConfig where
  showCompleted : Bool
  showBlocked : Bool
  showWithoutTags : Bool
  selectedTags : List String
deriving DecidableEq

/- Scalar fields of a Task (interface Task in types.ts / part_001).
   The recursive `children` field lives in the inductive `Task` below,
   because Lean separates the recursive occurrence from the record.
   `scheduled`/`start` keep the matched date payload string (the source
   wraps it in a JS Date, used only by the layout engine).
   `outlinks` keeps the subpath strings of the cached links. -/
structure TaskData where
  id : String
  text : String
  completed : Bool
  parent : Option String
  blockers : List String
  file : String
  line : Nat
  depth : Nat
  tags : List String
  scheduled : Option String
  start : Option String
  blockId : Option String
  outlinks : Option (List String)
deriving DecidableEq

mutual
inductive Task where
  | node (data : TaskData) (children : TaskList)
inductive TaskList where
  | nil
  | cons (t : Task) (ts : TaskList)
end

deriving instance DecidableEq for Task, TaskList

def Task.data : Task → TaskData
  | .node d _ => d

def Task.children : Task → TaskList
  | .node _ cs => cs

inductive LinkType where
  | hierarchy
  | dependency
deriving DecidableEq

/- Directed edge of the render-ready graph (interface TaskLink). -/
structure TaskLink where
  source : String
  target : String
  type : LinkType
deriving DecidableEq

/- The node/edge pair stored into this.data by processTasks.  A TaskNode is
   the spread copy of a Task (its mutable x/y/fx/fy position fields are set
   later by the simulation and are absent at assembly time). -/
structure GraphData where
  nodes : List Task
  links : List TaskLink
deriving DecidableEq

/- ## Marker extraction (the per-line part of collectTasks)

   The source matches JS regexes against one line.  We model the character
   classes: JS white space is modelled by Char.isWhitespace (space, tab,
   CR, LF cover every character occurring in checklist lines), and the JS
   non-space class by its negation.  Scanners that consume a token and
   resume after it are written with a fuel argument equal to the input
   length so that they are structurally recursive (each step consumes at
   least one character, so that fuel is always sufficient); scanners that
   only ever recurse on the tail are plain structural recursion. -/

def isWS (c : Char) : Bool := c.isWhitespace

def nonWS (c : Char) : Bool := !c.isWhitespace

/- All matches of the global regex tag pattern (hash sign followed by one
   or more non-space characters), in order, each returned with its hash. -/
def scanTagsF : Nat → List Char → List (List Char)
  | 0, _ => []
  | _, [] => []
  | fuel + 1, c :: rest =>
    if c = '#' then
      let tok := rest.takeWhile nonWS
      if tok.isEmpty then scanTagsF fuel rest
      else ('#' :: tok) :: scanTagsF fuel (rest.dropWhile nonWS)
    else scanTagsF fuel rest

def scanTags (l : List Char) : List (List Char) := scanTagsF l.length l

/- text.replace of the same global tag pattern by the empty string. -/
def stripTagsF : Nat → List Char → List Char
  | 0, l => l
  | _, [] => []
  | fuel + 1, c :: rest =>
    if c = '#' then
      let tok := rest.takeWhile nonWS
      if tok.isEmpty then c :: stripTagsF fuel rest
      else stripTagsF fuel (rest.dropWhile nonWS)
    else c :: stripTagsF fuel rest

def stripTags (l : List Char) : List Char := stripTagsF l.length l

/- Array.from(new Set(xs)): deduplication keeping first occurrences in
   insertion order. -/
def dedupKeepFirst : List String → List String :=
  go []
where
  go (seen : List String) : List String → List String
    | [] => []
    | x :: xs => if seen.contains x then go seen xs else x :: go (x :: seen) xs

/- First match payload of a marker regex: the marker character, then any
   white space, then one or more non-space characters (the payload).  When
   nothing non-space follows a marker occurrence the regex engine moves on
   and a later occurrence may still match. -/
def findMarker (marker : Char) : List Char → Option (List Char)
  | [] => none
  | c :: rest =>
    if c = marker then
      let tok := (rest.dropWhile isWS).takeWhile nonWS
      if tok.isEmpty then findMarker marker rest else some tok
    else findMarker marker rest

/- All payloads of the global blocker regex, in order. -/
def findAllMarkersF (marker : Char) : Nat → List Char → List (List Char)
  | 0, _ => []
  | _, [] => []
  | fuel + 1, c :: rest =>
    if c = marker then
      let ws := rest.dropWhile isWS
      let tok := ws.takeWhile nonWS
      if tok.isEmpty then findAllMarkersF marker fuel rest
      else tok :: findAllMarkersF marker fuel (ws.dropWhile nonWS)
    else findAllMarkersF marker fuel rest

def findAllMarkers (marker : Char) (l : List Char) : List (List Char) :=
  findAllMarkersF marker l.length l

/- text.replace of the id/blocker alternation by the empty string: both
   branches start with distinct marker characters, so one left-to-right
   scan deleting marker-plus-payload matches is equivalent. -/
def stripIdBlockersF : Nat → List Char → List Char
  | 0, l => l
  | _, [] => []
  | fuel + 1, c :: rest =>
    if c = '🆔' ∨ c = '⛔' then
      let ws := rest.dropWhile isWS
      let tok := ws.takeWhile nonWS
      if tok.isEmpty then c :: stripIdBlockersF fuel rest
      else stripIdBlockersF fuel (ws.dropWhile nonWS)
    else c :: stripIdBlockersF fuel rest

def stripIdBlockers (l : List Char) : List Char := stripIdBlockersF l.length l

/- Does the list start with a date-shaped payload (four digits, dash, two
   digits, dash, two digits)?  The date regexes have no trailing boundary,
   so a match is exactly a 10-character date-shaped prefix. -/
def isDateShape (l : List Char) : Bool :=
  match l with
  | [c1, c2, c3, c4, h1, c5, c6, h2, c7, c8] =>
    c1.isDigit && c2.isDigit && c3.isDigit && c4.isDigit &&
    h1 = '-' && c5.isDigit && c6.isDigit && h2 = '-' && c7.isDigit && c8.isDigit
  | _ => false

def takeDatePrefix (l : List Char) : Option (List Char × List Char) :=
  if isDateShape (l.take 10) then some (l.take 10, l.drop 10) else none

/- First payload of a date-marker regex (marker, white space, date). -/
def findDate (marker : Char) : List Char → Option (List Char)
  | [] => none
  | c :: rest =>
    if c = marker then
      match takeDatePrefix (rest.dropWhile isWS) with
      | some (d, _) => some d
      | none => findDate marker rest
    else findDate marker rest

/- text.replace of a global date-marker regex by the empty string. -/
def stripDateF (marker : Char) : Nat → List Char → List Char
  | 0, l => l
  | _, [] => []
  | fuel + 1, c :: rest =>
    if c = marker then
      match takeDatePrefix (rest.dropWhile isWS) with
      | some (_, rest2) => stripDateF marker fuel rest2
      | none => c :: stripDateF marker fuel rest
    else c :: stripDateF marker fuel rest

def stripDate (marker : Char) (l : List Char) : List Char := stripDateF marker l.length l

/- String.prototype.trim: drop white space from both ends. -/
def trimWS (l : List Char) : List Char :=
  ((l.dropWhile isWS).reverse.dropWhile isWS).reverse

/- The checklist-prefix regex: dash, space, bracketed single status
   character, then greedy white space, then a non-empty remainder.  The
   greedy white-space part backtracks one character when the remainder
   would otherwise be empty, so an all-white-space remainder matches with
   its last character as content. -/
def matchChecklist (trimmed : List Char) : Option (Char × List Char) :=
  match trimmed with
  | '-' :: ' ' :: '[' :: s :: ']' :: rest =>
    let content := rest.dropWhile isWS
    if content.isEmpty then
      if rest.isEmpty then none else some (s, rest.drop (rest.length - 1))
    else some (s, content)
  | _ => none

/- Result of the per-line extraction steps of collectTasks.  The date
   payloads are kept as their matched strings (the source wraps them in JS
   Date objects used only by the layout engine). -/
structure ExtractResult where
  completed : Bool
  text : String
  tags : List String
  id : Option String
  blockers : List String
  scheduled : Option String
  start : Option String
deriving DecidableEq

/- The extraction pipeline of collectTasks for one line, in source order:
   trimStart and checklist-prefix match, tags (extract, lowercase,
   deduplicate, strip, trim), id and blockers (extract, strip, trim),
   dates (extract, strip scheduled then start, trim). -/
def parseChecklistLine (line : String) : Option ExtractResult :=
  let trimmed := line.data.dropWhile isWS
  match matchChecklist trimmed with
  | none => none
  | some (s, content) =>
    let tags := dedupKeepFirst ((scanTags content).map (fun t => String.mk (t.map Char.toLower)))
    let t1 := trimWS (stripTags content)
    let idPayload := (findMarker '🆔' t1).map String.mk
    let blockers := (findAllMarkers '⛔' t1).map String.mk
    let t2 := trimWS (stripIdBlockers t1)
    let sched := (findDate '⏳' t2).map String.mk
    let strt := (findDate '🛫' t2).map String.mk
    let t3 := trimWS (stripDate '🛫' (stripDate '⏳' t2))
    some ⟨s != ' ', String.mk t3, tags, idPayload, blockers, sched, strt⟩

/- ## Hierarchy builder (the stack loop of collectTasks)

   The builder links each new task to the task object on top of the popped
   stack; we index tasks by discovery order and record that link as the
   parent's index (the source stores the parent task's id string and pushes
   the child into the parent object's children array; the index names that
   same task object unambiguously). -/

structure HEntry where
  parentIdx : Option Nat
  depth : Nat
deriving DecidableEq

structure HFrame where
  indent : Nat
  idx : Nat
  depth : Nat
deriving DecidableEq

/- One line of the stack loop: pop while the top frame's indentation is
   greater than or equal to the new line's, then attach to the new top if
   any, then push. -/
def hierStep (st : List HEntry × List HFrame) (indent : Nat) : List HEntry × List HFrame :=
  let out := st.1
  let stack := st.2.dropWhile (fun f => decide (indent ≤ f.indent))
  match stack with
  | [] => (out ++ [⟨none, 0⟩], ⟨indent, out.length, 0⟩ :: stack)
  | top :: _ =>
    (out ++ [⟨some top.idx, top.depth + 1⟩], ⟨indent, out.length, top.depth + 1⟩ :: stack)

def buildHierarchy (indents : List Nat) : List HEntry :=
  (indents.foldl hierStep ([], [])).1

/- Transitive closure of the parent relation on the builder's output. -/
inductive Ancestor (out : List HEntry) : Nat → Nat → Prop
  | parent {i j : Nat} : (out.getD i ⟨none, 0⟩).parentIdx = some j → Ancestor out j i
  | step {i j k : Nat} :
      (out.getD i ⟨none, 0⟩).parentIdx = some j → Ancestor out k j → Ancestor out k i

/- Correctness predicates for the builder's state: a stack frame caches the
   index and depth of a task already emitted, and an emitted entry is a
   root of depth zero or points at an earlier parent entry one level up. -/
def frameOK (out : List HEntry) (fr : HFrame) : Prop :=
  fr.idx < out.length ∧ (out.getD fr.idx ⟨none, 0⟩).depth = fr.depth

def entryOK (out : List HEntry) (i : Nat) : Prop :=
  ((out.getD i ⟨none, 0⟩).parentIdx = none → (out.getD i ⟨none, 0⟩).depth = 0) ∧
  ∀ j, (out.getD i ⟨none, 0⟩).parentIdx = some j →
    j < i ∧ (out.getD j ⟨none, 0⟩).depth + 1 = (out.getD i ⟨none, 0⟩).depth

def hierInv (st : List HEntry × List HFrame) : Prop :=
  (∀ fr ∈ st.2, frameOK st.1 fr) ∧ ∀ i, i < st.1.length → entryOK st.1 i

/- ## Document scan (collectTasks of the canvas variant)

   A document handle as the scan consumes it: its path, its raw text, and
   the two host metadata-cache projections the scan reads (list items as
   pairs of start line and block id, and the cached link subpaths; a
   missing cache or missing cache field behaves as the empty list or none
   respectively). -/
structure MDFile where
  path : String
  content : String
  listItems : List (Nat × String)
  links : Option (List String)
deriving DecidableEq

/- JS String.prototype.split with separator newline (keeps empty pieces). -/
def splitLines : List Char → List String
  | [] => [""]
  | c :: rest =>
    let r := splitLines rest
    if c = '\n' then "" :: r
    else String.mk (c :: (r.headD "").data) :: r.tail

/- Decimal digit characters, the decimal rendering of a line number used by
   the derived-id template string, written with explicit fuel so that it is
   structurally recursive (the fuel n + 1 always suffices, as each step
   divides by ten). -/
def digitChar : Nat → Char
  | 0 => '0' | 1 => '1' | 2 => '2' | 3 => '3' | 4 => '4'
  | 5 => '5' | 6 => '6' | 7 => '7' | 8 => '8' | _ => '9'

def decRepF : Nat → Nat → List Char
  | 0, _ => []
  | fuel + 1, n =>
    if n < 10 then [digitChar n]
    else decRepF fuel (n / 10) ++ [digitChar (n % 10)]

def decRep (n : Nat) : List Char := decRepF (n + 1) n

def decStr (n : Nat) : String := String.mk (decRep n)

/- The derived task id template: task-(document path)-(line number). -/
def derivedId (path : String) (i : Nat) : String :=
  "task-" ++ path ++ "-" ++ decStr i

/- Stack frame of the scan: the fields of the pushed task object that the
   loop later reads (indentation, id, depth). -/
structure SFrame where
  indent : Nat
  id : String
  depth : Nat
deriving DecidableEq

/- The Task record built for one matching line (children are rebuilt by the
   hierarchy-builder model above, since Lean records cannot be mutated the
   way the source pushes children into the parent object; every scalar
   field is computed exactly as the source computes it). -/
def lineTask (f : MDFile) (i : Nat) (r : ExtractResult) (parent : Option (String × Nat)) :
    TaskData where
  id := match r.id with
    | some x => x
    | none => derivedId f.path i
  text := r.text
  completed := r.completed
  parent := parent.map Prod.fst
  blockers := r.blockers
  file := f.path
  line := i
  depth := match parent with
    | some (_, d) => d + 1
    | none => 0
  tags := r.tags
  scheduled := r.scheduled
  start := r.start
  blockId := (f.listItems.find? (fun p => p.1 == i)).map Prod.snd
  outlinks := f.links

/- The indentation of a line: its length minus its trimStart length. -/
def lineIndent (line : String) : Nat :=
  line.length - (line.data.dropWhile isWS).length

/- The pop loop of the scan stack (top frames with indent at least the new
   line's are closed). -/
def popFrames (indent : Nat) (stack : List SFrame) : List SFrame :=
  stack.dropWhile fun fr => decide (indent ≤ fr.indent)

/- Id and depth of the stack top, if any: the parent of the next task. -/
def frameParent : List SFrame → Option (String × Nat)
  | [] => none
  | top :: _ => some (top.id, top.depth)

/- The per-line loop of collectTasks: each line is skipped once the task
   limit is reached, otherwise parsed, attached through the indentation
   stack and appended. -/
def scanLines (limit : Nat) (f : MDFile) :
    List String → Nat → List TaskData → List SFrame → List TaskData × List SFrame
  | [], _, tasks, stack => (tasks, stack)
  | line :: rest, i, tasks, stack =>
    if limit ≤ tasks.length then scanLines limit f rest (i + 1) tasks stack
    else
      match parseChecklistLine line with
      | none => scanLines limit f rest (i + 1) tasks stack
      | some r =>
        let stack2 := popFrames (lineIndent line) stack
        let td := lineTask f i r (frameParent stack2)
        scanLines limit f rest (i + 1) (tasks ++ [td])
          (⟨lineIndent line, td.id, td.depth⟩ :: stack2)

/- The per-file loop of collectTasks.  The source breaks out of the file
   loop once the limit is reached; skipping each remaining file is
   equivalent because the task list only ever grows. -/
def collectTasks (limit : Nat) (files : List MDFile) : List TaskData :=
  files.foldl
    (fun tasks f =>
      if limit ≤ tasks.length then tasks
      else (scanLines limit f (splitLines f.content.data) 0 tasks []).1)
    []

/- The id assigned to one line were it scanned (analysis helper for the
   uniqueness theorems: explicit marker payload or derived id). -/
def lineId (f : MDFile) (i : Nat) (line : String) : Option String :=
  (parseChecklistLine line).map fun r =>
    match r.id with
    | some x => x
    | none => derivedId f.path i

def fileLineIds (f : MDFile) : List String → Nat → List String
  | [], _ => []
  | line :: rest, i => (lineId f i line).toList ++ fileLineIds f rest (i + 1)

def fileIds (f : MDFile) : List String :=
  fileLineIds f (splitLines f.content.data) 0

/- The explicit id-marker payloads of a sequence of scanned lines. -/
def explicitOf (lines : List String) : List String :=
  lines.filterMap fun line => (parseChecklistLine line).bind (·.id)

/- The explicit id-marker payloads of a document's checklist lines. -/
def explicitIds (f : MDFile) : List String :=
  explicitOf (splitLines f.content.data)

/- Concrete documents used by the example instances below: three plain
   tasks; two tasks sharing one explicit id marker; an explicit id next to
   a derived one. -/
def sampleFile : MDFile :=
  ⟨"a.md", "- [ ] one\n- [ ] two\n- [ ] three", [], none⟩

def dupFile : MDFile :=
  ⟨"a.md", "- [ ] x 🆔 t1\n- [ ] y 🆔 t1", [], none⟩

def goodFile : MDFile :=
  ⟨"a.md", "- [ ] x 🆔 t1\n- [ ] y", [], none⟩

/- ## Shared assembler pieces

   The TaskNode pushed for a task: the spread copy with the display text
   prefixed by the completion glyph when the task is completed. -/
def mkNode : Task → Task
  | .node d cs => .node { d with text := if d.completed then "✅ " ++ d.text else d.text } cs

/- Preorder flattening of a task tree / forest, as the recursive id
   collector of the SVG assembler visits it. -/
mutual
def flattenT : Task → List Task
  | .node d cs => .node d cs :: flattenL cs
def flattenL : TaskList → List Task
  | .nil => []
  | .cons t ts => flattenT t ++ flattenL ts
end

def nodeIds (g : GraphData) : List String :=
  g.nodes.map fun n => n.data.id

/- ## Policy A: the toggle-based visibility filter (SVG variant) -/
namespace Svg

/- The tag predicate of the create closure. -/
def tagOk (cfg : ViewConfig) (d : TaskData) : Bool :=
  let hasTag := !cfg.selectedTags.isEmpty && d.tags.any fun tag => cfg.selectedTags.contains tag
  let noTags := cfg.showWithoutTags && d.tags.isEmpty
  (cfg.selectedTags.isEmpty && !cfg.showWithoutTags) || hasTag || noTags

/- The node-emission condition of the create closure. -/
def visCond (cfg : ViewConfig) (d : TaskData) : Bool :=
  (cfg.showCompleted || !d.completed) && (cfg.showBlocked || d.blockers.isEmpty) &&
    tagOk cfg d

/- The hierarchy-edge condition of the create closure (gating both
   endpoints on the completed and blocked toggles, with no tag gating). -/
def hierCond (cfg : ViewConfig) (p c : TaskData) : Bool :=
  (cfg.showCompleted || (!p.completed && !c.completed)) &&
  (cfg.showBlocked || (p.blockers.isEmpty && c.blockers.isEmpty))

/- The recursive create closure, split into its two output arrays (the
   source pushes nodes and links into two separate arrays during one
   traversal; the per-array emission order is preserved exactly). -/
mutual
def createNodes (cfg : ViewConfig) : Task → List Task
  | .node d cs =>
    (if visCond cfg d then [mkNode (.node d cs)] else []) ++ createNodesL cfg cs
def createNodesL (cfg : ViewConfig) : TaskList → List Task
  | .nil => []
  | .cons c rest => createNodes cfg c ++ createNodesL cfg rest
end

mutual
def createLinks (cfg : ViewConfig) : Task → List TaskLink
  | .node d cs => createLinksL cfg d cs
def createLinksL (cfg : ViewConfig) (p : TaskData) : TaskList → List TaskLink
  | .nil => []
  | .cons c rest =>
    (if hierCond cfg p c.data then [⟨p.id, c.data.id, .hierarchy⟩] else []) ++
    (createLinks cfg c ++ createLinksL cfg p rest)
end

/- tasks.filter(t => !t.parent). -/
def rootTasks (tasks : List Task) : List Task :=
  tasks.filter fun t => t.data.parent.isNone

/- The recursively collected id set over the root forest. -/
def allIds (tasks : List Task) : List String :=
  ((rootTasks tasks).flatMap flattenT).map fun t => t.data.id

def nodesOf (cfg : ViewConfig) (tasks : List Task) : List Task :=
  (rootTasks tasks).flatMap (createNodes cfg)

def hierLinks (cfg : ViewConfig) (tasks : List Task) : List TaskLink :=
  (rootTasks tasks).flatMap (createLinks cfg)

def visibleIds (cfg : ViewConfig) (tasks : List Task) : List String :=
  (nodesOf cfg tasks).map fun n => n.data.id

/- The dependency-edge pass over the flat task list. -/
def depLinks (cfg : ViewConfig) (tasks : List Task) : List TaskLink :=
  tasks.flatMap fun t =>
    if !cfg.showBlocked && !t.data.blockers.isEmpty then []
    else
      t.data.blockers.flatMap fun b =>
        if (allIds tasks).contains b && (visibleIds cfg tasks).contains b &&
            (visibleIds cfg tasks).contains t.data.id
        then [⟨b, t.data.id, .dependency⟩]
        else []

def processTasks (cfg : ViewConfig) (tasks : List Task) : GraphData :=
  ⟨nodesOf cfg tasks, hierLinks cfg tasks ++ depLinks cfg tasks⟩

end Svg

/- The visibility predicate of Policy A as the specification words it: a
   task is visible iff (showCompleted OR not completed) AND (showBlocked OR
   no blockers) AND a tag predicate that passes everything when no tag is
   selected and "show without tags" is off, and otherwise passes a task iff
   it has a selected tag or ("show without tags" is on and it has no tags).
   Modelled from the spec for comparison against the source definition. -/
def specVisible (cfg : ViewConfig) (d : TaskData) : Bool :=
  (cfg.showCompleted || !d.completed) && (cfg.showBlocked || d.blockers.isEmpty) &&
    (if cfg.selectedTags.isEmpty && !cfg.showWithoutTags then true
     else
       (d.tags.any fun tag => cfg.selectedTags.contains tag) ||
       (cfg.showWithoutTags && d.tags.isEmpty))

/- ## Policy B: the #want reachability filter (canvas variant) -/
namespace Canvas

/- Ids of the tasks carrying the distinguished tag. -/
def wantIds (tasks : List Task) : List String :=
  (tasks.filter fun t => t.data.tags.contains "#want").map fun t => t.data.id

/- Block ids of the tasks carrying the distinguished tag. -/
def wantBlockIds (tasks : List Task) : List String :=
  (tasks.filter fun t => t.data.tags.contains "#want").filterMap fun t => t.data.blockId

/- Ids of the tasks whose outlinks reference a wanted block id; the source
   drops the first character of the link subpath before the lookup. -/
def linkedIds (tasks : List Task) : List String :=
  (tasks.filter fun t =>
      match t.data.outlinks with
      | some ls => ls.any fun l => (wantBlockIds tasks).contains (l.drop 1)
      | none => false).map
    fun t => t.data.id

def allIds (tasks : List Task) : List String :=
  tasks.map fun t => t.data.id

def filteredTasks (tasks : List Task) : List Task :=
  tasks.filter fun t =>
    (wantIds tasks).contains t.data.id || (linkedIds tasks).contains t.data.id

def nodesOf (tasks : List Task) : List Task :=
  (filteredTasks tasks).map mkNode

def visibleIds (tasks : List Task) : List String :=
  (nodesOf tasks).map fun n => n.data.id

/- One pass over the filtered tasks pushes, per task, its hierarchy edge
   (when its parent is visible) then its dependency edges. -/
def linksOf (tasks : List Task) : List TaskLink :=
  (filteredTasks tasks).flatMap fun t =>
    (match t.data.parent with
     | some p =>
       if (visibleIds tasks).contains p then [(⟨p, t.data.id, .hierarchy⟩ : TaskLink)]
       else []
     | none => []) ++
    (t.data.blockers.flatMap fun b =>
      if (allIds tasks).contains b && (visibleIds tasks).contains b &&
          (visibleIds tasks).contains t.data.id
      then [(⟨b, t.data.id, .dependency⟩ : TaskLink)]
      else [])

/- The canvas processTasks.  It is a method of the view class and so has
   the toggle fields in scope, but reads none of them: the parameter cfg is
   therefore unused, exactly as in the source. -/
def processTasks (_cfg : ViewConfig) (tasks : List Task) : GraphData :=
  ⟨nodesOf tasks, linksOf tasks⟩

end Canvas

/- Concrete two-task collection (one root with one child, no tags, no
   blockers) used by the example instances below. -/
def sampleChild : Task :=
  Task.node ⟨"c", "C", false, some "p", [], "f.md", 1, 1, [], none, none, none, none⟩
    TaskList.nil

def sampleRoot : Task :=
  Task.node ⟨"p", "P", false, none, [], "f.md", 0, 0, [], none, none, none, none⟩
    (TaskList.cons sampleChild TaskList.nil)

def sampleTasks : List Task := [sampleRoot, sampleChild]

/- ## Pan/zoom gesture filters

   The fields of a DOM event the filters read. -/
inductive EvType where
  | wheel
  | mousedown
  | other
deriving DecidableEq

structure UIEvent where
  type : EvType
  button : Nat
  ctrlKey : Bool
deriving DecidableEq

namespace Svg

/- The filter installed on the SVG variant's zoom behavior: wheel events
   zoom, right-button (button 2) mousedown pans, everything else (in
   particular any primary-button press) is blocked. -/
def zoomFilter (e : UIEvent) : Bool :=
  if e.type == EvType.wheel then true
  else if e.type == EvType.mousedown && e.button == 2 then true
  else false

end Svg

namespace Canvas

/- The canvas variant calls d3.zoom() without installing any filter, so
   the library's documented default filter decides which events start the
   gesture: (not ctrlKey or a wheel event) and button equal to zero, i.e.
   it accepts primary-button (button 0) presses. -/
def zoomFilter (e : UIEvent) : Bool :=
  (!e.ctrlKey || e.type == EvType.wheel) && e.button == 0

end Canvas

/- ## General helper lemmas -/

@[simp]
theorem Task.data_node (d : TaskData) (cs : TaskList) : (Task.node d cs).data = d := rfl

theorem getD_append_left {α : Type} (l₁ l₂ : List α) (d : α) (i : Nat)
    (h : i < l₁.length) : (l₁ ++ l₂).getD i d = l₁.getD i d := by
  induction l₁ generalizing i with
  | nil => simp at h
  | cons x xs ih =>
    cases i with
    | zero => rfl
    | succ n =>
      simp only [List.cons_append, List.getD_cons_succ]
      exact ih n (by simpa using h)

theorem getD_append_length {α : Type} (l : List α) (e d : α) :
    (l ++ [e]).getD l.length d = e := by
  induction l with
  | nil => rfl
  | cons x xs ih => simp [ih]

theorem getD_eq_default {α : Type} (l : List α) (d : α) (i : Nat)
    (h : l.length ≤ i) : l.getD i d = d := by
  induction l generalizing i with
  | nil => cases i <;> rfl
  | cons x xs ih =>
    cases i with
    | zero => simp at h
    | succ n => simpa using ih n (by simpa using h)

theorem str_data_inj {a b : String} (h : a.data = b.data) : a = b :=
  String.ext h

theorem str_append_left_cancel {a b c : String} (h : a ++ b = a ++ c) : b = c := by
  have hd : a.data ++ b.data = a.data ++ c.data := by
    have := congrArg String.data h
    simpa [String.data_append] using this
  exact str_data_inj (List.append_cancel_left hd)

theorem append_mark_inj {α : Type} (m : α) :
    ∀ (a c : List α) {b d : List α}, m ∉ a → m ∉ c →
      a ++ m :: b = c ++ m :: d → a = c ∧ b = d := by
  intro a
  induction a with
  | nil =>
    intro c b d _ hc h
    cases c with
    | nil => simpa using h
    | cons y ys =>
      simp only [List.nil_append, List.cons_append, List.cons.injEq] at h
      exact absurd (h.1 ▸ List.mem_cons_self y ys) hc
  | cons x xs ih =>
    intro c b d ha hc h
    cases c with
    | nil =>
      simp only [List.cons_append, List.nil_append, List.cons.injEq] at h
      exact absurd (h.1 ▸ List.mem_cons_self x xs) ha
    | cons y ys =>
      simp only [List.cons_append, List.cons.injEq] at h
      obtain ⟨hxy, h2⟩ := h
      have := ih ys (fun hm => ha (List.mem_cons_of_mem x hm))
        (fun hm => hc (List.mem_cons_of_mem y hm)) h2
      exact ⟨by simp [hxy, this.1], this.2⟩

/- ## Decimal rendering lemmas -/

theorem decRepF_irrel : ∀ (n fuel₁ fuel₂ : Nat), n < fuel₁ → n < fuel₂ →
    decRepF fuel₁ n = decRepF fuel₂ n := by
  intro n
  induction n using Nat.strong_induction_on with
  | _ n ih =>
    intro fuel₁ fuel₂ h₁ h₂
    match fuel₁, fuel₂ with
    | a + 1, b + 1 =>
      simp only [decRepF]
      by_cases h10 : n < 10
      · simp [h10]
      · have hdiv : n / 10 < n := Nat.div_lt_self (by omega) (by omega)
        have := ih (n / 10) hdiv a b (by omega) (by omega)
        simp [h10, this]

theorem decRep_small {n : Nat} (h : n < 10) : decRep n = [digitChar n] := by
  simp [decRep, decRepF, h]

theorem decRep_rec {n : Nat} (h : ¬ n < 10) :
    decRep n = decRep (n / 10) ++ [digitChar (n % 10)] := by
  have hdiv : n / 10 < n := Nat.div_lt_self (by omega) (by omega)
  have hirrel := decRepF_irrel (n / 10) n (n / 10 + 1) (by omega) (by omega)
  have hstep : decRepF (n + 1) n = decRepF n (n / 10) ++ [digitChar (n % 10)] := by
    conv_lhs => rw [decRepF]
    simp [h]
  rw [decRep, hstep, hirrel, decRep]

theorem digitChar_ne_dash (k : Nat) : digitChar k ≠ '-' := by
  unfold digitChar
  split <;> decide

theorem digitChar_inj10 : ∀ m < 10, ∀ n < 10, digitChar m = digitChar n → m = n := by
  decide

theorem decRep_ne_dash : ∀ n : Nat, '-' ∉ decRep n := by
  intro n
  induction n using Nat.strong_induction_on with
  | _ n ih =>
    by_cases h10 : n < 10
    · rw [decRep_small h10]
      intro hmem
      simp only [List.mem_singleton] at hmem
      exact digitChar_ne_dash n hmem.symm
    · rw [decRep_rec h10]
      have hdiv : n / 10 < n := Nat.div_lt_self (by omega) (by omega)
      simp only [List.mem_append, List.mem_singleton]
      rintro (h | h)
      · exact ih (n / 10) hdiv h
      · exact digitChar_ne_dash (n % 10) h.symm

theorem decRep_ne_nil (n : Nat) : decRep n ≠ [] := by
  by_cases h10 : n < 10
  · rw [decRep_small h10]; simp
  · rw [decRep_rec h10]; simp

theorem decRep_inj : ∀ m n : Nat, decRep m = decRep n → m = n := by
  intro m
  induction m using Nat.strong_induction_on with
  | _ m ih =>
    intro n h
    by_cases hm : m < 10 <;> by_cases hn : n < 10
    · rw [decRep_small hm, decRep_small hn] at h
      exact digitChar_inj10 m hm n hn (by simpa using h)
    · rw [decRep_small hm, decRep_rec hn] at h
      have := congrArg List.length h
      have hne := decRep_ne_nil (n / 10)
      simp at this
      cases hrep : decRep (n / 10) with
      | nil => exact absurd hrep hne
      | cons a as => rw [hrep] at this; simp at this
    · rw [decRep_rec hm, decRep_small hn] at h
      have := congrArg List.length h
      have hne := decRep_ne_nil (m / 10)
      simp at this
      cases hrep : decRep (m / 10) with
      | nil => exact absurd hrep hne
      | cons a as => rw [hrep] at this; simp at this
    · rw [decRep_rec hm, decRep_rec hn] at h
      have hdiv : m / 10 < m := Nat.div_lt_self (by omega) (by omega)
      obtain ⟨h1, h2⟩ := List.append_inj' h (by simp)
      have hq := ih (m / 10) hdiv (n / 10) h1
      have hr := digitChar_inj10 (m % 10) (by omega) (n % 10) (by omega) (by simpa using h2)
      omega

theorem decStr_inj {m n : Nat} (h : decStr m = decStr n) : m = n :=
  decRep_inj m n (by simpa [decStr] using congrArg String.data h)

theorem derivedId_data (p : String) (i : Nat) :
    (derivedId p i).data = "task-".data ++ (p.data ++ '-' :: decRep i) := by
  simp [derivedId, String.data_append, decStr]

theorem derivedId_inj {p₁ p₂ : String} {i₁ i₂ : Nat}
    (h : derivedId p₁ i₁ = derivedId p₂ i₂) : p₁ = p₂ ∧ i₁ = i₂ := by
  have hd := congrArg String.data h
  rw [derivedId_data, derivedId_data] at hd
  have hd2 := List.append_cancel_left hd
  have hrev := congrArg List.reverse hd2
  simp only [List.reverse_append, List.reverse_cons] at hrev
  have hrev2 : (decRep i₁).reverse ++ '-' :: p₁.data.reverse
      = (decRep i₂).reverse ++ '-' :: p₂.data.reverse := by
    simpa [List.append_assoc] using hrev
  have hm := append_mark_inj '-' (decRep i₁).reverse (decRep i₂).reverse
    (by simp; exact decRep_ne_dash i₁) (by simp; exact decRep_ne_dash i₂) hrev2
  constructor
  · exact str_data_inj (by simpa using congrArg List.reverse hm.2)
  · exact decRep_inj i₁ i₂ (by simpa using congrArg List.reverse hm.1)

theorem derivedId_take5 (p : String) (i : Nat) :
    (derivedId p i).data.take 5 = "task-".data := by
  rw [derivedId_data]
  have h5 : ("task-".data).length = 5 := by decide
  rw [← h5]
  exact List.take_left "task-".data _

/- ## Hierarchy builder invariants -/

theorem hierStep_inv (st : List HEntry × List HFrame) (indent : Nat)
    (h : hierInv st) : hierInv (hierStep st indent) := by
  obtain ⟨hfr, hen⟩ := h
  have hsub : ∀ fr ∈ st.2.dropWhile (fun f => decide (indent ≤ f.indent)), fr ∈ st.2 :=
    fun fr hm => (List.dropWhile_sublist _).subset hm
  have hold : ∀ (e : HEntry) (i : Nat), i < st.1.length →
      (st.1 ++ [e]).getD i ⟨none, 0⟩ = st.1.getD i ⟨none, 0⟩ :=
    fun e i hi => getD_append_left st.1 [e] ⟨none, 0⟩ i hi
  have holdEntry : ∀ (e : HEntry) (i : Nat), i < st.1.length →
      entryOK (st.1 ++ [e]) i := by
    intro e i hi
    obtain ⟨hroot, hpar⟩ := hen i hi
    constructor
    · intro hp
      rw [hold e i hi] at hp ⊢
      exact hroot hp
    · intro j hp
      rw [hold e i hi] at hp ⊢
      obtain ⟨hj, hd⟩ := hpar j hp
      refine ⟨hj, ?_⟩
      rw [hold e j (by omega)]
      exact hd
  unfold hierStep
  cases hpop : st.2.dropWhile (fun f => decide (indent ≤ f.indent)) with
  | nil =>
    simp only
    constructor
    · intro fr hm
      simp only [List.mem_singleton] at hm
      subst hm
      exact ⟨by simp, by rw [getD_append_length]⟩
    · intro i hi
      simp only [List.length_append, List.length_singleton] at hi
      rcases Nat.lt_or_ge i st.1.length with hlt | hge
      · exact holdEntry _ i hlt
      · have hieq : i = st.1.length := by omega
        subst hieq
        constructor
        · intro _
          rw [getD_append_length]
        · intro j hp
          rw [getD_append_length] at hp
          simp at hp
  | cons top rest2 =>
    have htop : frameOK st.1 top := hfr top (hsub top (by rw [hpop]; exact List.mem_cons_self top rest2))
    simp only
    constructor
    · intro fr hm
      rcases List.mem_cons.mp hm with hm | hm
      · subst hm
        exact ⟨by simp, by rw [getD_append_length]⟩
      · have hfr2 : frameOK st.1 fr := hfr fr (hsub fr (by rw [hpop]; exact hm))
        refine ⟨?_, ?_⟩
        · have := hfr2.1
          simp only [List.length_append, List.length_singleton]
          omega
        · rw [hold _ fr.idx hfr2.1]
          exact hfr2.2
    · intro i hi
      simp only [List.length_append, List.length_singleton] at hi
      rcases Nat.lt_or_ge i st.1.length with hlt | hge
      · exact holdEntry _ i hlt
      · have hieq : i = st.1.length := by omega
        subst hieq
        constructor
        · intro hp
          rw [getD_append_length] at hp
          simp at hp
        · intro j hp
          rw [getD_append_length] at hp
          have hj : top.idx = j := by
            simpa using hp
          subst hj
          refine ⟨htop.1, ?_⟩
          rw [getD_append_length, hold _ top.idx htop.1, htop.2]

theorem foldl_hierStep_inv (indents : List Nat) :
    ∀ st : List HEntry × List HFrame, hierInv st → hierInv (indents.foldl hierStep st) := by
  induction indents with
  | nil => intro st h; exact h
  | cons x xs ih =>
    intro st h
    exact ih (hierStep st x) (hierStep_inv st x h)

theorem buildHierarchy_entryOK (indents : List Nat) :
    ∀ i, i < (buildHierarchy indents).length → entryOK (buildHierarchy indents) i := by
  have hinv : hierInv (indents.foldl hierStep ([], [])) := by
    apply foldl_hierStep_inv
    unfold hierInv
    exact ⟨(fun fr hm => by cases hm), (fun i hi => by simp at hi)⟩
  exact hinv.2

theorem ancestor_lt (out : List HEntry)
    (hok : ∀ i, i < out.length → entryOK out i) :
    ∀ a b : Nat, Ancestor out a b → a < b := by
  intro a b h
  induction h with
  | @parent i j hp =>
    by_cases hi : i < out.length
    · exact ((hok i hi).2 j hp).1
    · rw [getD_eq_default _ _ _ (by omega)] at hp
      simp at hp
  | @step i j k hp _ ih =>
    by_cases hi : i < out.length
    · have := ((hok i hi).2 j hp).1
      omega
    · rw [getD_eq_default _ _ _ (by omega)] at hp
      simp at hp

/-- Claim C3: for every document's ordered sequence of indentation widths fed
to the stack-based hierarchy builder, every emitted task entry is either a
root (parent null, depth zero) or points at an earlier-discovered parent
whose recorded depth is exactly one less, and no task is its own ancestor
(the parent relation is acyclic). -/
theorem claim3_hierarchy_invariant (indents : List Nat) (i : Nat)
    (hi : i < (buildHierarchy indents).length) :
    (((buildHierarchy indents).getD i ⟨none, 0⟩).parentIdx = none →
      ((buildHierarchy indents).getD i ⟨none, 0⟩).depth = 0) ∧
    (∀ j, ((buildHierarchy indents).getD i ⟨none, 0⟩).parentIdx = some j →
      j < i ∧ ((buildHierarchy indents).getD j ⟨none, 0⟩).depth + 1
        = ((buildHierarchy indents).getD i ⟨none, 0⟩).depth) ∧
    ¬ Ancestor (buildHierarchy indents) i i := by
  have hok := buildHierarchy_entryOK indents
  obtain ⟨h1, h2⟩ := hok i hi
  refine ⟨h1, h2, ?_⟩
  intro hanc
  exact absurd (ancestor_lt _ hok i i hanc) (lt_irrefl i)

/-- Witness for C3 at the concrete indentation sequence [0, 2]: line 1 is the
child of line 0 at depth 1, and is not its own ancestor. -/
theorem claim3_witness :
    1 < (buildHierarchy [0, 2]).length ∧
    ((((buildHierarchy [0, 2]).getD 1 ⟨none, 0⟩).parentIdx = none →
       ((buildHierarchy [0, 2]).getD 1 ⟨none, 0⟩).depth = 0) ∧
     (∀ j, ((buildHierarchy [0, 2]).getD 1 ⟨none, 0⟩).parentIdx = some j →
       j < 1 ∧ ((buildHierarchy [0, 2]).getD j ⟨none, 0⟩).depth + 1
         = ((buildHierarchy [0, 2]).getD 1 ⟨none, 0⟩).depth) ∧
     ¬ Ancestor (buildHierarchy [0, 2]) 1 1) :=
  ⟨by decide, claim3_hierarchy_invariant [0, 2] 1 (by decide)⟩

/-- Claim C4: marker extraction on the concrete line "- [ ] Buy milk
errand-tag id-marker t1" yields completed false, residual display text
"Buy milk", the single lowercase tag, and explicit id t1. -/
theorem claim4_marker_extraction :
    parseChecklistLine "- [ ] Buy milk #errand 🆔 t1"
      = some ⟨false, "Buy milk", ["#errand"], some "t1", [], none, none⟩ := by
  decide

/-- Claim C10: the canvas-variant assembler ignores every filter toggle: two
runs over the same task collection with arbitrarily different view
configurations emit identical node and edge sets. -/
theorem claim10_toggle_noninterference (cfg₁ cfg₂ : ViewConfig) (tasks : List Task) :
    Canvas.processTasks cfg₁ tasks = Canvas.processTasks cfg₂ tasks := rfl

/-- Counterexample to claim C8 as stated: the canvas variant installs no
filter on its zoom behavior, so the default filter accepts a primary-button
(button 0) mousedown and a pan is started by the primary button. -/
theorem claim8_counterexample :
    ¬ (Canvas.zoomFilter ⟨EvType.mousedown, 0, false⟩ = false) := by
  decide

/-- Claim C8 (amended): in the SVG variant the zoom behavior's filter starts
the gesture exactly on wheel events and on non-primary right-button
(button 2) mousedown events, and in particular never on a primary-button
press; the canvas variant installs no filter, so the library default
applies there and the exclusivity does not hold for it. -/
theorem claim8_pan_exclusivity (e : UIEvent) :
    (Svg.zoomFilter e = true ↔
      (e.type = EvType.wheel ∨ (e.type = EvType.mousedown ∧ e.button = 2))) ∧
    (e.type = EvType.mousedown → e.button = 0 → Svg.zoomFilter e = false) := by
  obtain ⟨t, b, c⟩ := e
  cases t
  · simp [Svg.zoomFilter]
  · simp [Svg.zoomFilter]
    omega
  · simp [Svg.zoomFilter]

/-- Witness for C8 at a concrete primary-button mousedown event: the SVG
variant's filter blocks it. -/
theorem claim8_witness :
    Svg.zoomFilter ⟨EvType.mousedown, 0, false⟩ = false :=
  (claim8_pan_exclusivity ⟨EvType.mousedown, 0, false⟩).2 rfl rfl

/- ## Node projection lemmas -/

theorem mkNode_id (t : Task) : (mkNode t).data.id = t.data.id := by
  cases t
  rfl

theorem mkNode_blockers (t : Task) : (mkNode t).data.blockers = t.data.blockers := by
  cases t
  rfl

theorem glyph_text_inj {c : Bool} {a b : String}
    (h : (if c = true then "✅ " ++ a else a) = (if c = true then "✅ " ++ b else b)) :
    a = b := by
  cases c
  · simpa using h
  · simp only [if_pos rfl] at h
    exact str_append_left_cancel h

theorem mkNode_inj {t u : Task} (h : mkNode t = mkNode u) : t = u := by
  cases t with
  | node d cs =>
    cases u with
    | node e ds =>
      simp only [mkNode, Task.node.injEq] at h
      obtain ⟨hd, hcs⟩ := h
      subst hcs
      cases d
      cases e
      simp only [TaskData.mk.injEq] at hd
      obtain ⟨h1, h2, h3, h4, h5, h6, h7, h8, h9, h10, h11, h12, h13⟩ := hd
      subst h1 h3 h4 h5 h6 h7 h8 h9 h10 h11 h12 h13
      have := glyph_text_inj h2
      subst this
      rfl

/- ## Policy A structure lemmas -/

namespace Svg

theorem tagOk_trivial (cfg : ViewConfig) (d : TaskData)
    (h1 : cfg.selectedTags = []) (h2 : cfg.showWithoutTags = false) :
    tagOk cfg d = true := by
  simp [tagOk, h1, h2]

theorem hierCond_parts {cfg : ViewConfig} {p c : TaskData}
    (h : hierCond cfg p c = true) :
    ((cfg.showCompleted || !p.completed) && (cfg.showBlocked || p.blockers.isEmpty)) = true ∧
    ((cfg.showCompleted || !c.completed) && (cfg.showBlocked || c.blockers.isEmpty)) = true := by
  simp only [hierCond, Bool.and_eq_true, Bool.or_eq_true] at h
  simp only [Bool.and_eq_true, Bool.or_eq_true]
  tauto

theorem visCond_of_hierCond_left {cfg : ViewConfig} {p c : TaskData}
    (h1 : cfg.selectedTags = []) (h2 : cfg.showWithoutTags = false)
    (h : hierCond cfg p c = true) : visCond cfg p = true := by
  have hp := (hierCond_parts h).1
  simp only [visCond, Bool.and_eq_true] at hp ⊢
  exact ⟨⟨hp.1, hp.2⟩, tagOk_trivial cfg p h1 h2⟩

theorem visCond_of_hierCond_right {cfg : ViewConfig} {p c : TaskData}
    (h1 : cfg.selectedTags = []) (h2 : cfg.showWithoutTags = false)
    (h : hierCond cfg p c = true) : visCond cfg c = true := by
  have hp := (hierCond_parts h).2
  simp only [visCond, Bool.and_eq_true] at hp ⊢
  exact ⟨⟨hp.1, hp.2⟩, tagOk_trivial cfg c h1 h2⟩

mutual

theorem createNodes_eq (cfg : ViewConfig) :
    ∀ t : Task, createNodes cfg t
      = ((flattenT t).filter fun u => visCond cfg u.data).map mkNode
  | .node d cs => by
    rw [createNodes, flattenT, createNodesL_eq cfg cs]
    by_cases h : visCond cfg d
    · simp [List.filter_cons, h]
    · simp [List.filter_cons, h]

theorem createNodesL_eq (cfg : ViewConfig) :
    ∀ ts : TaskList, createNodesL cfg ts
      = ((flattenL ts).filter fun u => visCond cfg u.data).map mkNode
  | .nil => by simp [createNodesL, flattenL]
  | .cons t rest => by
    rw [createNodesL, flattenL, createNodes_eq cfg t, createNodesL_eq cfg rest]
    simp [List.filter_append]

end

theorem nodesOf_eq (cfg : ViewConfig) (tasks : List Task) :
    nodesOf cfg tasks
      = (((rootTasks tasks).flatMap flattenT).filter fun u => visCond cfg u.data).map
          mkNode := by
  unfold nodesOf
  rw [show createNodes cfg
      = fun t => ((flattenT t).filter fun u => visCond cfg u.data).map mkNode
    from funext (createNodes_eq cfg)]
  induction rootTasks tasks with
  | nil => simp
  | cons x xs ih => simp [List.flatMap_cons, ih, List.filter_append]

theorem visibleIds_eq (cfg : ViewConfig) (tasks : List Task) :
    visibleIds cfg tasks
      = (((rootTasks tasks).flatMap flattenT).filter fun u => visCond cfg u.data).map
          fun u => u.data.id := by
  unfold visibleIds
  rw [nodesOf_eq, List.map_map]
  congr 1
  funext u
  exact mkNode_id u

theorem mem_visibleIds_of_visCond {cfg : ViewConfig} {tasks : List Task} {u : Task}
    (hu : u ∈ (rootTasks tasks).flatMap flattenT) (hv : visCond cfg u.data = true) :
    u.data.id ∈ visibleIds cfg tasks := by
  rw [visibleIds_eq]
  exact List.mem_map.mpr ⟨u, List.mem_filter.mpr ⟨hu, hv⟩, rfl⟩

mutual

theorem createLinks_type (cfg : ViewConfig) :
    ∀ t : Task, ∀ l ∈ createLinks cfg t, l.type = LinkType.hierarchy
  | .node d cs => by
    rw [createLinks]
    exact createLinksL_type cfg d cs

theorem createLinksL_type (cfg : ViewConfig) (p : TaskData) :
    ∀ ts : TaskList, ∀ l ∈ createLinksL cfg p ts, l.type = LinkType.hierarchy
  | .nil => by simp [createLinksL]
  | .cons c rest => by
    intro l hl
    rw [createLinksL] at hl
    rcases List.mem_append.mp hl with h | h
    · by_cases hc : hierCond cfg p c.data = true
      · simp only [if_pos hc, List.mem_singleton] at h
        subst h
        rfl
      · simp only [if_neg hc] at h
        simp at h
    · rcases List.mem_append.mp h with h2 | h2
      · exact createLinks_type cfg c l h2
      · exact createLinksL_type cfg p rest l h2

end

mutual

theorem createLinks_sound (cfg : ViewConfig)
    (h1 : cfg.selectedTags = []) (h2 : cfg.showWithoutTags = false) :
    ∀ t : Task, ∀ l ∈ createLinks cfg t,
      l.source ∈ (createNodes cfg t).map (fun n => n.data.id) ∧
      l.target ∈ (createNodes cfg t).map (fun n => n.data.id)
  | .node d cs => by
    intro l hl
    rw [createLinks] at hl
    obtain ⟨hsrc, htgt⟩ := createLinksL_sound cfg h1 h2 d cs l hl
    rw [createNodes]
    constructor
    · rcases hsrc with ⟨heq, hvis⟩ | hmem
      · rw [heq]
        apply List.mem_map.mpr
        refine ⟨mkNode (.node d cs), ?_, by simp [mkNode_id]⟩
        apply List.mem_append_left
        simp [hvis]
      · simp only [List.map_append]
        exact List.mem_append_right _ hmem
    · simp only [List.map_append]
      exact List.mem_append_right _ htgt

theorem createLinksL_sound (cfg : ViewConfig)
    (h1 : cfg.selectedTags = []) (h2 : cfg.showWithoutTags = false) (p : TaskData) :
    ∀ ts : TaskList, ∀ l ∈ createLinksL cfg p ts,
      ((l.source = p.id ∧ visCond cfg p = true) ∨
        l.source ∈ (createNodesL cfg ts).map (fun n => n.data.id)) ∧
      l.target ∈ (createNodesL cfg ts).map (fun n => n.data.id)
  | .nil => by simp [createLinksL]
  | .cons c rest => by
    intro l hl
    rw [createLinksL] at hl
    rw [createNodesL]
    rcases List.mem_append.mp hl with h | h
    · by_cases hc : hierCond cfg p c.data = true
      · simp only [if_pos hc, List.mem_singleton] at h
        subst h
        refine ⟨Or.inl ⟨rfl, visCond_of_hierCond_left h1 h2 hc⟩, ?_⟩
        have hvc : visCond cfg c.data = true := visCond_of_hierCond_right h1 h2 hc
        cases c with
        | node dc csc =>
          apply List.mem_map.mpr
          refine ⟨mkNode (.node dc csc), ?_, by simp [mkNode_id]⟩
          apply List.mem_append_left
          rw [createNodes]
          apply List.mem_append_left
          simp only [Task.data_node] at hvc
          simp [hvc]
      · simp only [if_neg hc] at h
        simp at h
    · rcases List.mem_append.mp h with h2' | h2'
      · obtain ⟨hsrc, htgt⟩ := createLinks_sound cfg h1 h2 c l h2'
        simp only [List.map_append]
        exact ⟨Or.inr (List.mem_append_left _ hsrc), List.mem_append_left _ htgt⟩
      · obtain ⟨hsrc, htgt⟩ := createLinksL_sound cfg h1 h2 p rest l h2'
        simp only [List.map_append]
        refine ⟨?_, List.mem_append_right _ htgt⟩
        rcases hsrc with hsrc | hsrc
        · exact Or.inl hsrc
        · exact Or.inr (List.mem_append_right _ hsrc)

end

theorem mem_depLinks {cfg : ViewConfig} {tasks : List Task} {l : TaskLink}
    (hl : l ∈ depLinks cfg tasks) :
    l.type = LinkType.dependency ∧ l.source ∈ allIds tasks ∧
    l.source ∈ visibleIds cfg tasks ∧ l.target ∈ visibleIds cfg tasks := by
  unfold depLinks at hl
  rw [List.mem_flatMap] at hl
  obtain ⟨t, _, hlt⟩ := hl
  by_cases hskip : (!cfg.showBlocked && !t.data.blockers.isEmpty) = true
  · rw [if_pos hskip] at hlt
    simp at hlt
  · rw [if_neg hskip] at hlt
    rw [List.mem_flatMap] at hlt
    obtain ⟨b, _, hbl⟩ := hlt
    by_cases hcond : ((allIds tasks).contains b && (visibleIds cfg tasks).contains b &&
        (visibleIds cfg tasks).contains t.data.id) = true
    · rw [if_pos hcond] at hbl
      simp only [List.mem_singleton] at hbl
      subst hbl
      simp only [Bool.and_eq_true] at hcond
      obtain ⟨⟨hc1, hc2⟩, hc3⟩ := hcond
      exact ⟨rfl, by simpa using hc1, by simpa using hc2, by simpa using hc3⟩
    · rw [if_neg hcond] at hbl
      simp at hbl

theorem visCond_eq_spec (cfg : ViewConfig) (d : TaskData) :
    visCond cfg d = specVisible cfg d := by
  rw [Bool.eq_iff_iff]
  rcases cfg with ⟨sc, sb, swt, sel⟩
  cases swt <;> cases sel <;>
    simp [visCond, specVisible, tagOk, List.any_eq_true]

end Svg

theorem nodeIds_svg (cfg : ViewConfig) (tasks : List Task) :
    nodeIds (Svg.processTasks cfg tasks) = Svg.visibleIds cfg tasks := rfl

theorem nodeIds_canvas (cfg : ViewConfig) (tasks : List Task) :
    nodeIds (Canvas.processTasks cfg tasks) = Canvas.visibleIds tasks := rfl

/- ## Policy B structure lemmas -/

namespace Canvas

theorem mem_visibleIds_of_filtered {tasks : List Task} {t : Task}
    (ht : t ∈ filteredTasks tasks) : t.data.id ∈ visibleIds tasks := by
  unfold visibleIds nodesOf
  rw [List.map_map]
  apply List.mem_map.mpr
  exact ⟨t, ht, by simp [mkNode_id]⟩

theorem links_sound (tasks : List Task) :
    ∀ l ∈ linksOf tasks,
      (l.source ∈ visibleIds tasks ∧ l.target ∈ visibleIds tasks) ∧
      (l.type = LinkType.dependency → l.source ∈ allIds tasks) := by
  intro l hl
  unfold linksOf at hl
  rw [List.mem_flatMap] at hl
  obtain ⟨t, ht, hlt⟩ := hl
  rcases List.mem_append.mp hlt with h | h
  · cases hp : t.data.parent with
    | none =>
      rw [hp] at h
      simp at h
    | some p =>
      rw [hp] at h
      have h' : l ∈ (if (visibleIds tasks).contains p = true
          then [(⟨p, t.data.id, LinkType.hierarchy⟩ : TaskLink)] else []) := h
      by_cases hc : (visibleIds tasks).contains p = true
      · rw [if_pos hc] at h'
        simp only [List.mem_singleton] at h'
        subst h'
        refine ⟨⟨by simpa using hc, mem_visibleIds_of_filtered ht⟩, ?_⟩
        intro htype
        simp at htype
      · rw [if_neg hc] at h'
        simp at h'
  · rw [List.mem_flatMap] at h
    obtain ⟨b, _, hbl⟩ := h
    by_cases hcond : ((allIds tasks).contains b && (visibleIds tasks).contains b &&
        (visibleIds tasks).contains t.data.id) = true
    · rw [if_pos hcond] at hbl
      simp only [List.mem_singleton] at hbl
      subst hbl
      simp only [Bool.and_eq_true] at hcond
      obtain ⟨⟨hc1, hc2⟩, hc3⟩ := hcond
      exact ⟨⟨by simpa using hc2, by simpa using hc3⟩, fun _ => by simpa using hc1⟩
    · rw [if_neg hcond] at hbl
      simp at hbl

end Canvas

/-- Claim C2: under Policy A a task of the collection appears in the emitted
node set iff (showCompleted or it is not completed) and (showBlocked or it
has no blockers) and the tag predicate of the specification holds, where the
predicate passes everything when no tag is selected and "show without tags"
is off, and otherwise passes a task iff it carries a selected tag or ("show
without tags" is on and it carries no tag). -/
theorem claim2_policyA_visibility (cfg : ViewConfig) (tasks : List Task) (t : Task)
    (ht : t ∈ (Svg.rootTasks tasks).flatMap flattenT) :
    mkNode t ∈ (Svg.processTasks cfg tasks).nodes ↔ specVisible cfg t.data = true := by
  have hn : (Svg.processTasks cfg tasks).nodes = Svg.nodesOf cfg tasks := rfl
  rw [hn, Svg.nodesOf_eq, ← Svg.visCond_eq_spec]
  constructor
  · intro hm
    obtain ⟨u, hu, hequ⟩ := List.mem_map.mp hm
    have hut : u = t := mkNode_inj hequ
    subst hut
    exact (List.mem_filter.mp hu).2
  · intro hv
    exact List.mem_map.mpr ⟨t, List.mem_filter.mpr ⟨ht, hv⟩, rfl⟩

/-- Witness for C2 at the sample collection with all filters trivial: the
child task's node is emitted iff the specification predicate accepts it. -/
theorem claim2_witness :
    sampleChild ∈ (Svg.rootTasks sampleTasks).flatMap flattenT ∧
    (mkNode sampleChild ∈ (Svg.processTasks ⟨true, true, false, []⟩ sampleTasks).nodes
      ↔ specVisible ⟨true, true, false, []⟩ sampleChild.data = true) :=
  ⟨by decide,
    claim2_policyA_visibility ⟨true, true, false, []⟩ sampleTasks sampleChild (by decide)⟩

/-- Claim C9: applying the Policy A assembler twice with identical toggle
state yields an identical node/edge set (contents and order); moreover the
emitted node sequence is exactly the preorder traversal of the root forest
filtered by the visibility condition, so node order is determined by the
traversal order alone. -/
theorem claim9_policyA_idempotent (cfg₁ cfg₂ : ViewConfig) (tasks : List Task)
    (h : cfg₁ = cfg₂) :
    Svg.processTasks cfg₁ tasks = Svg.processTasks cfg₂ tasks ∧
    (Svg.processTasks cfg₁ tasks).nodes
      = (((Svg.rootTasks tasks).flatMap flattenT).filter
          fun u => Svg.visCond cfg₁ u.data).map mkNode := by
  subst h
  exact ⟨rfl, Svg.nodesOf_eq cfg₁ tasks⟩

/-- Witness for C9 at the sample collection and a concrete toggle state. -/
theorem claim9_witness :
    (⟨true, true, false, []⟩ : ViewConfig) = ⟨true, true, false, []⟩ ∧
    (Svg.processTasks ⟨true, true, false, []⟩ sampleTasks
        = Svg.processTasks ⟨true, true, false, []⟩ sampleTasks ∧
      (Svg.processTasks ⟨true, true, false, []⟩ sampleTasks).nodes
        = (((Svg.rootTasks sampleTasks).flatMap flattenT).filter
            fun u => Svg.visCond ⟨true, true, false, []⟩ u.data).map mkNode) :=
  ⟨rfl, claim9_policyA_idempotent ⟨true, true, false, []⟩ ⟨true, true, false, []⟩
    sampleTasks rfl⟩

/-- Counterexample to claim C1 as stated: with the tag filter selecting an
absent tag, the Policy A assembler emits the hierarchy edge from the sample
root to its child while emitting no node at all, so the edge references
nodes absent from the emitted node set. -/
theorem claim1_counterexample :
    (Svg.processTasks ⟨true, true, false, ["#x"]⟩ sampleTasks).nodes = [] ∧
    (Svg.processTasks ⟨true, true, false, ["#x"]⟩ sampleTasks).links
      = [⟨"p", "c", LinkType.hierarchy⟩] := by
  decide

/-- Claim C1 (amended): every edge emitted by the Policy B assembler has both
endpoints in its emitted node set; for Policy A this holds for every
dependency edge unconditionally, and for all edges whenever no tag filter is
active (no selected tags and "show without tags" off) — with an active tag
filter Policy A can emit a hierarchy edge whose endpoints are not emitted
(the renderer later discards such edges when building validLinks). -/
theorem claim1_referential_integrity
    (cfgA : ViewConfig) (tasksA : List Task)
    (hsel : cfgA.selectedTags = []) (hwt : cfgA.showWithoutTags = false)
    (cfgD : ViewConfig) (tasksD : List Task)
    (cfgB : ViewConfig) (tasksB : List Task) :
    (∀ l ∈ (Svg.processTasks cfgA tasksA).links,
      l.source ∈ nodeIds (Svg.processTasks cfgA tasksA) ∧
      l.target ∈ nodeIds (Svg.processTasks cfgA tasksA)) ∧
    (∀ l ∈ (Svg.processTasks cfgD tasksD).links, l.type = LinkType.dependency →
      l.source ∈ nodeIds (Svg.processTasks cfgD tasksD) ∧
      l.target ∈ nodeIds (Svg.processTasks cfgD tasksD)) ∧
    (∀ l ∈ (Canvas.processTasks cfgB tasksB).links,
      l.source ∈ nodeIds (Canvas.processTasks cfgB tasksB) ∧
      l.target ∈ nodeIds (Canvas.processTasks cfgB tasksB)) := by
  refine ⟨?_, ?_, ?_⟩
  · intro l hl
    have hlinks : (Svg.processTasks cfgA tasksA).links
        = Svg.hierLinks cfgA tasksA ++ Svg.depLinks cfgA tasksA := rfl
    rw [hlinks] at hl
    rw [nodeIds_svg]
    rcases List.mem_append.mp hl with h | h
    · unfold Svg.hierLinks at h
      rw [List.mem_flatMap] at h
      obtain ⟨r, hr, hlr⟩ := h
      obtain ⟨hs, ht2⟩ := Svg.createLinks_sound cfgA hsel hwt r l hlr
      have hlift : ∀ x, x ∈ (Svg.createNodes cfgA r).map (fun n => n.data.id) →
          x ∈ Svg.visibleIds cfgA tasksA := by
        intro x hx
        unfold Svg.visibleIds Svg.nodesOf
        obtain ⟨n, hn, hnx⟩ := List.mem_map.mp hx
        exact List.mem_map.mpr ⟨n, List.mem_flatMap.mpr ⟨r, hr, hn⟩, hnx⟩
      exact ⟨hlift _ hs, hlift _ ht2⟩
    · have := Svg.mem_depLinks h
      exact ⟨this.2.2.1, this.2.2.2⟩
  · intro l hl htype
    have hlinks : (Svg.processTasks cfgD tasksD).links
        = Svg.hierLinks cfgD tasksD ++ Svg.depLinks cfgD tasksD := rfl
    rw [hlinks] at hl
    rw [nodeIds_svg]
    rcases List.mem_append.mp hl with h | h
    · unfold Svg.hierLinks at h
      rw [List.mem_flatMap] at h
      obtain ⟨r, _, hlr⟩ := h
      have := Svg.createLinks_type cfgD r l hlr
      rw [this] at htype
      simp at htype
    · have := Svg.mem_depLinks h
      exact ⟨this.2.2.1, this.2.2.2⟩
  · intro l hl
    rw [nodeIds_canvas]
    exact (Canvas.links_sound tasksB l hl).1

/-- Witness for C1 (amended) at the sample collection with concrete toggle
states: a tag-free configuration for the Policy A part, a tag-filtering one
for the dependency-only part, and any configuration for Policy B. -/
theorem claim1_witness :
    ((⟨true, true, false, []⟩ : ViewConfig).selectedTags = [] ∧
     (⟨true, true, false, []⟩ : ViewConfig).showWithoutTags = false) ∧
    ((∀ l ∈ (Svg.processTasks ⟨true, true, false, []⟩ sampleTasks).links,
       l.source ∈ nodeIds (Svg.processTasks ⟨true, true, false, []⟩ sampleTasks) ∧
       l.target ∈ nodeIds (Svg.processTasks ⟨true, true, false, []⟩ sampleTasks)) ∧
     (∀ l ∈ (Svg.processTasks ⟨true, true, false, ["#x"]⟩ sampleTasks).links,
       l.type = LinkType.dependency →
       l.source ∈ nodeIds (Svg.processTasks ⟨true, true, false, ["#x"]⟩ sampleTasks) ∧
       l.target ∈ nodeIds (Svg.processTasks ⟨true, true, false, ["#x"]⟩ sampleTasks)) ∧
     (∀ l ∈ (Canvas.processTasks ⟨true, true, false, []⟩ sampleTasks).links,
       l.source ∈ nodeIds (Canvas.processTasks ⟨true, true, false, []⟩ sampleTasks) ∧
       l.target ∈ nodeIds (Canvas.processTasks ⟨true, true, false, []⟩ sampleTasks))) :=
  ⟨⟨rfl, rfl⟩,
    claim1_referential_integrity ⟨true, true, false, []⟩ sampleTasks rfl rfl
      ⟨true, true, false, ["#x"]⟩ sampleTasks ⟨true, true, false, []⟩ sampleTasks⟩

/-- Claim C6: a blocker id that no task of the collection carries never
becomes the source of an emitted dependency edge, in either assembler, and
the dangling reference itself is preserved unchanged in the node's blockers
list; the model functions are total, so extraction and assembly always
complete. -/
theorem claim6_dangling_blocker
    (cfgA : ViewConfig) (tasksA : List Task) (cfgB : ViewConfig) (tasksB : List Task)
    (b : String)
    (hA : ∀ u ∈ (Svg.rootTasks tasksA).flatMap flattenT, u.data.id ≠ b)
    (hB : ∀ u ∈ tasksB, u.data.id ≠ b) :
    (∀ l ∈ (Svg.processTasks cfgA tasksA).links, l.type = LinkType.dependency →
      l.source ≠ b) ∧
    (∀ l ∈ (Canvas.processTasks cfgB tasksB).links, l.type = LinkType.dependency →
      l.source ≠ b) ∧
    (∀ t : Task, (mkNode t).data.blockers = t.data.blockers) := by
  refine ⟨?_, ?_, mkNode_blockers⟩
  · intro l hl htype heq
    have hlinks : (Svg.processTasks cfgA tasksA).links
        = Svg.hierLinks cfgA tasksA ++ Svg.depLinks cfgA tasksA := rfl
    rw [hlinks] at hl
    rcases List.mem_append.mp hl with h | h
    · unfold Svg.hierLinks at h
      rw [List.mem_flatMap] at h
      obtain ⟨r, _, hlr⟩ := h
      have := Svg.createLinks_type cfgA r l hlr
      rw [this] at htype
      simp at htype
    · have hmem := (Svg.mem_depLinks h).2.1
      unfold Svg.allIds at hmem
      obtain ⟨u, hu, hid⟩ := List.mem_map.mp hmem
      exact hA u hu (by rw [hid, heq])
  · intro l hl htype heq
    have hmem := (Canvas.links_sound tasksB l hl).2 htype
    unfold Canvas.allIds at hmem
    obtain ⟨u, hu, hid⟩ := List.mem_map.mp hmem
    exact hB u hu (by rw [hid, heq])

/- ## Scan loop lemmas -/

theorem scanLines_frozen (limit : Nat) (f : MDFile) :
    ∀ (lines : List String) (i : Nat) (tasks : List TaskData) (stack : List SFrame),
      limit ≤ tasks.length → scanLines limit f lines i tasks stack = (tasks, stack) := by
  intro lines
  induction lines with
  | nil => intro i tasks stack _; rfl
  | cons line rest ih =>
    intro i tasks stack h
    rw [scanLines, if_pos h]
    exact ih (i + 1) tasks stack h

theorem scanLines_append_only (limit : Nat) (f : MDFile) :
    ∀ (lines : List String) (i : Nat) (tasks : List TaskData) (stack : List SFrame),
      List.IsPrefix tasks (scanLines limit f lines i tasks stack).1 := by
  intro lines
  induction lines with
  | nil => intro i tasks stack; exact List.prefix_rfl
  | cons line rest ih =>
    intro i tasks stack
    rw [scanLines]
    by_cases h : limit ≤ tasks.length
    · rw [if_pos h]
      exact ih (i + 1) tasks stack
    · rw [if_neg h]
      cases hp : parseChecklistLine line with
      | none => exact ih (i + 1) tasks stack
      | some r =>
        exact (List.prefix_append tasks _).trans (ih (i + 1) _ _)

theorem scanLines_len (limit : Nat) (f : MDFile) :
    ∀ (lines : List String) (i : Nat) (tasks : List TaskData) (stack : List SFrame),
      tasks.length ≤ limit → ((scanLines limit f lines i tasks stack).1).length ≤ limit := by
  intro lines
  induction lines with
  | nil => intro i tasks stack h; exact h
  | cons line rest ih =>
    intro i tasks stack h
    rw [scanLines]
    by_cases hskip : limit ≤ tasks.length
    · rw [if_pos hskip]
      exact ih (i + 1) tasks stack h
    · rw [if_neg hskip]
      cases hp : parseChecklistLine line with
      | none => exact ih (i + 1) tasks stack h
      | some r =>
        apply ih (i + 1)
        simp only [List.length_append, List.length_singleton]
        omega

theorem scanLines_mono (limit limit' : Nat) (hll : limit ≤ limit') (f : MDFile) :
    ∀ (lines : List String) (i : Nat) (tasks : List TaskData) (stack : List SFrame),
      tasks.length ≤ limit →
      scanLines limit f lines i tasks stack = scanLines limit' f lines i tasks stack ∨
      ((scanLines limit f lines i tasks stack).1.length = limit ∧
        List.IsPrefix (scanLines limit f lines i tasks stack).1
          (scanLines limit' f lines i tasks stack).1) := by
  intro lines
  induction lines with
  | nil => intro i tasks stack _; left; rfl
  | cons line rest ih =>
    intro i tasks stack htl
    by_cases h1 : limit ≤ tasks.length
    · have hfl := scanLines_frozen limit f (line :: rest) i tasks stack h1
      by_cases h2 : limit' ≤ tasks.length
      · left
        rw [hfl, scanLines_frozen limit' f (line :: rest) i tasks stack h2]
      · right
        rw [hfl]
        refine ⟨?_, scanLines_append_only limit' f (line :: rest) i tasks stack⟩
        simp only
        omega
    · have h2 : ¬ limit' ≤ tasks.length := by omega
      rw [scanLines, scanLines, if_neg h1, if_neg h2]
      cases hp : parseChecklistLine line with
      | none => exact ih (i + 1) tasks stack htl
      | some r =>
        apply ih (i + 1)
        simp only [List.length_append, List.length_singleton]
        omega

theorem collect_aux_frozen (limit : Nat) :
    ∀ (files : List MDFile) (tasks : List TaskData), limit ≤ tasks.length →
      files.foldl
        (fun tasks f =>
          if limit ≤ tasks.length then tasks
          else (scanLines limit f (splitLines f.content.data) 0 tasks []).1)
        tasks = tasks := by
  intro files
  induction files with
  | nil => intro tasks _; rfl
  | cons f fs ih =>
    intro tasks h
    rw [List.foldl_cons, if_pos h]
    exact ih tasks h

theorem collect_aux_append_only (limit : Nat) :
    ∀ (files : List MDFile) (tasks : List TaskData),
      List.IsPrefix tasks
        (files.foldl
          (fun tasks f =>
            if limit ≤ tasks.length then tasks
            else (scanLines limit f (splitLines f.content.data) 0 tasks []).1)
          tasks) := by
  intro files
  induction files with
  | nil => intro tasks; exact List.prefix_rfl
  | cons f fs ih =>
    intro tasks
    rw [List.foldl_cons]
    by_cases h : limit ≤ tasks.length
    · rw [if_pos h]
      exact ih tasks
    · rw [if_neg h]
      exact (scanLines_append_only limit f _ 0 tasks []).trans (ih _)

theorem collect_aux_len (limit : Nat) :
    ∀ (files : List MDFile) (tasks : List TaskData), tasks.length ≤ limit →
      (files.foldl
        (fun tasks f =>
          if limit ≤ tasks.length then tasks
          else (scanLines limit f (splitLines f.content.data) 0 tasks []).1)
        tasks).length ≤ limit := by
  intro files
  induction files with
  | nil => intro tasks h; exact h
  | cons f fs ih =>
    intro tasks h
    rw [List.foldl_cons]
    by_cases hskip : limit ≤ tasks.length
    · rw [if_pos hskip]
      exact ih tasks h
    · rw [if_neg hskip]
      exact ih _ (scanLines_len limit f _ 0 tasks [] h)

theorem collect_aux_mono (limit limit' : Nat) (hll : limit ≤ limit') :
    ∀ (files : List MDFile) (tasks : List TaskData), tasks.length ≤ limit →
      List.IsPrefix
        (files.foldl
          (fun tasks f =>
            if limit ≤ tasks.length then tasks
            else (scanLines limit f (splitLines f.content.data) 0 tasks []).1)
          tasks)
        (files.foldl
          (fun tasks f =>
            if limit' ≤ tasks.length then tasks
            else (scanLines limit' f (splitLines f.content.data) 0 tasks []).1)
          tasks) := by
  intro files
  induction files with
  | nil => intro tasks _; exact List.prefix_rfl
  | cons f fs ih =>
    intro tasks htl
    rw [List.foldl_cons, List.foldl_cons]
    by_cases h1 : limit ≤ tasks.length
    · rw [if_pos h1, collect_aux_frozen limit fs tasks h1]
      by_cases h2 : limit' ≤ tasks.length
      · rw [if_pos h2]
        exact collect_aux_append_only limit' fs tasks
      · rw [if_neg h2]
        exact (scanLines_append_only limit' f _ 0 tasks []).trans
          (collect_aux_append_only limit' fs _)
    · have h2 : ¬ limit' ≤ tasks.length := by omega
      rw [if_neg h1, if_neg h2]
      rcases scanLines_mono limit limit' hll f (splitLines f.content.data) 0 tasks []
          (by omega) with heq | ⟨hlen, hpre⟩
      · rw [heq]
        exact ih _ (by rw [← heq]; exact scanLines_len limit f _ 0 tasks [] (by omega))
      · rw [collect_aux_frozen limit fs _ (by omega)]
        exact hpre.trans (collect_aux_append_only limit' fs _)

/-- Claim C7: the configured task-count limit caps a scan — the collected
task list never exceeds the limit, and a scan with a smaller limit collects
exactly a prefix of what the same scan with any larger limit collects
(scanning simply stops early; no error, no other change). -/
theorem claim7_parse_limit (limit : Nat) (files : List MDFile) :
    (collectTasks limit files).length ≤ limit ∧
    ∀ limit', limit ≤ limit' →
      List.IsPrefix (collectTasks limit files) (collectTasks limit' files) := by
  constructor
  · exact collect_aux_len limit files [] (by simp)
  · intro limit' hll
    exact collect_aux_mono limit limit' hll files [] (by simp)

/-- Witness for C7 at a three-task document with limits one and two. -/
theorem claim7_witness :
    (collectTasks 1 [sampleFile]).length ≤ 1 ∧
    (1 ≤ 2 ∧
      List.IsPrefix (collectTasks 1 [sampleFile]) (collectTasks 2 [sampleFile])) :=
  ⟨(claim7_parse_limit 1 [sampleFile]).1,
    by decide, (claim7_parse_limit 1 [sampleFile]).2 2 (by decide)⟩

/- ## Scan id lemmas -/

theorem lineTask_id (f : MDFile) (i : Nat) (r : ExtractResult) (p : Option (String × Nat)) :
    (lineTask f i r p).id
      = match r.id with
        | some x => x
        | none => derivedId f.path i := rfl

theorem lineId_parse_some {f : MDFile} {i : Nat} {line : String} {r : ExtractResult}
    (hp : parseChecklistLine line = some r) (p : Option (String × Nat)) :
    lineId f i line = some ((lineTask f i r p).id) := by
  simp [lineId, hp, lineTask_id]

theorem lineId_parse_none {f : MDFile} {i : Nat} {line : String}
    (hp : parseChecklistLine line = none) : lineId f i line = none := by
  simp [lineId, hp]

theorem scanLines_ids_sublist (limit : Nat) (f : MDFile) :
    ∀ (lines : List String) (i : Nat) (tasks : List TaskData) (stack : List SFrame),
      List.Sublist ((scanLines limit f lines i tasks stack).1.map TaskData.id)
        (tasks.map TaskData.id ++ fileLineIds f lines i) := by
  intro lines
  induction lines with
  | nil =>
    intro i tasks stack
    rw [scanLines, fileLineIds]
    simp
  | cons line rest ih =>
    intro i tasks stack
    rw [scanLines, fileLineIds]
    by_cases h : limit ≤ tasks.length
    · rw [if_pos h]
      refine (ih (i + 1) tasks stack).trans ?_
      exact List.Sublist.append_left (List.sublist_append_right _ _) _
    · rw [if_neg h]
      cases hp : parseChecklistLine line with
      | none =>
        rw [lineId_parse_none hp]
        simpa using ih (i + 1) tasks stack
      | some r =>
        rw [lineId_parse_some hp (frameParent (popFrames (lineIndent line) stack))]
        refine List.Sublist.trans (ih (i + 1) _ _) ?_
        simp [List.map_append, List.append_assoc]

theorem mem_fileLineIds (f : MDFile) :
    ∀ (lines : List String) (i : Nat) (s : String), s ∈ fileLineIds f lines i →
      s ∈ explicitOf lines ∨ ∃ k, i ≤ k ∧ s = derivedId f.path k := by
  intro lines
  induction lines with
  | nil =>
    intro i s hs
    rw [fileLineIds] at hs
    simp at hs
  | cons line rest ih =>
    intro i s hs
    rw [fileLineIds] at hs
    rcases List.mem_append.mp hs with h | h
    · cases hp : parseChecklistLine line with
      | none =>
        rw [lineId_parse_none hp] at h
        simp at h
      | some r =>
        rw [lineId_parse_some hp none, Option.toList_some, List.mem_singleton] at h
        subst h
        rw [lineTask_id]
        cases hr : r.id with
        | some e =>
          left
          simp [explicitOf, List.filterMap_cons, hp, hr]
        | none =>
          right
          exact ⟨i, le_refl i, by simp⟩
    · rcases ih (i + 1) s h with he | ⟨k, hk, hs2⟩
      · left
        rw [explicitOf, List.filterMap_cons]
        cases hopt : (parseChecklistLine line).bind (fun r => r.id) with
        | none => exact he
        | some e => exact List.mem_cons_of_mem e he
      · right
        exact ⟨k, by omega, hs2⟩

theorem fileLineIds_nodup (f : MDFile) :
    ∀ (lines : List String) (i : Nat),
      (explicitOf lines).Nodup →
      (∀ s ∈ explicitOf lines, s.data.take 5 ≠ "task-".data) →
      (fileLineIds f lines i).Nodup := by
  intro lines
  induction lines with
  | nil =>
    intro i _ _
    rw [fileLineIds]
    exact List.nodup_nil
  | cons line rest ih =>
    intro i hnd h5
    rw [fileLineIds]
    cases hp : parseChecklistLine line with
    | none =>
      rw [lineId_parse_none hp]
      have hexp : explicitOf (line :: rest) = explicitOf rest := by
        simp [explicitOf, List.filterMap_cons, hp]
      rw [hexp] at hnd h5
      simpa using ih (i + 1) hnd h5
    | some r =>
      rw [lineId_parse_some hp none, Option.toList_some, List.singleton_append,
        lineTask_id]
      cases hr : r.id with
      | some e =>
        have hexp : explicitOf (line :: rest) = e :: explicitOf rest := by
          simp [explicitOf, List.filterMap_cons, hp, hr]
        rw [hexp] at hnd h5
        rw [List.nodup_cons] at hnd ⊢
        obtain ⟨hne, hnd2⟩ := hnd
        constructor
        · intro hmem
          rcases mem_fileLineIds f rest (i + 1) e hmem with hmem2 | ⟨k, _, heq⟩
          · exact hne hmem2
          · apply h5 e (List.mem_cons_self e _)
            rw [heq]
            exact derivedId_take5 f.path k
        · exact ih (i + 1) hnd2 fun s hs => h5 s (List.mem_cons_of_mem e hs)
      | none =>
        have hexp : explicitOf (line :: rest) = explicitOf rest := by
          simp [explicitOf, List.filterMap_cons, hp, hr]
        rw [hexp] at hnd h5
        rw [List.nodup_cons]
        constructor
        · intro hmem
          rcases mem_fileLineIds f rest (i + 1) _ hmem with hmem2 | ⟨k, hk, heq⟩
          · exact h5 _ hmem2 (derivedId_take5 f.path i)
          · have := (derivedId_inj heq).2
            omega
        · exact ih (i + 1) hnd h5

theorem fileIds_disjoint {f g : MDFile} (hpath : f.path ≠ g.path)
    (hdisj : List.Disjoint (explicitIds f) (explicitIds g))
    (h5f : ∀ s ∈ explicitIds f, s.data.take 5 ≠ "task-".data)
    (h5g : ∀ s ∈ explicitIds g, s.data.take 5 ≠ "task-".data) :
    List.Disjoint (fileIds f) (fileIds g) := by
  intro s hsf hsg
  rcases mem_fileLineIds f _ 0 s hsf with hef | ⟨k, _, hdf⟩
  · rcases mem_fileLineIds g _ 0 s hsg with heg | ⟨k2, _, hdg⟩
    · exact hdisj hef heg
    · apply h5f s hef
      rw [hdg]
      exact derivedId_take5 g.path k2
  · rcases mem_fileLineIds g _ 0 s hsg with heg | ⟨k2, _, hdg⟩
    · apply h5g s heg
      rw [hdf]
      exact derivedId_take5 f.path k
    · apply hpath
      have heq : derivedId f.path k = derivedId g.path k2 := by
        rw [← hdf, ← hdg]
      exact (derivedId_inj heq).1

theorem flatMap_fileIds_nodup (files : List MDFile)
    (h1 : (files.map MDFile.path).Nodup)
    (h2 : (files.flatMap explicitIds).Nodup)
    (h3 : ∀ s ∈ files.flatMap explicitIds, s.data.take 5 ≠ "task-".data) :
    (files.flatMap fileIds).Nodup := by
  rw [List.nodup_flatMap] at h2 ⊢
  obtain ⟨hper, hpair⟩ := h2
  have hpaths : files.Pairwise fun a b => a.path ≠ b.path := by
    rw [List.Nodup, List.pairwise_map] at h1
    exact h1
  constructor
  · intro f hf
    apply fileLineIds_nodup
    · exact hper f hf
    · intro s hs
      exact h3 s (List.mem_flatMap.mpr ⟨f, hf, hs⟩)
  · apply List.Pairwise.imp_of_mem ?_ (hpaths.and hpair)
    intro a b ha hb hab
    exact fileIds_disjoint hab.1 hab.2
      (fun s hs => h3 s (List.mem_flatMap.mpr ⟨a, ha, hs⟩))
      (fun s hs => h3 s (List.mem_flatMap.mpr ⟨b, hb, hs⟩))

theorem collect_ids_sublist (limit : Nat) :
    ∀ (files : List MDFile) (tasks : List TaskData),
      List.Sublist
        ((files.foldl
          (fun tasks f =>
            if limit ≤ tasks.length then tasks
            else (scanLines limit f (splitLines f.content.data) 0 tasks []).1)
          tasks).map TaskData.id)
        (tasks.map TaskData.id ++ files.flatMap fileIds) := by
  intro files
  induction files with
  | nil =>
    intro tasks
    simp
  | cons f fs ih =>
    intro tasks
    rw [List.foldl_cons, List.flatMap_cons]
    by_cases h : limit ≤ tasks.length
    · rw [if_pos h]
      refine (ih tasks).trans ?_
      exact List.Sublist.append_left (List.sublist_append_right _ _) _
    · rw [if_neg h]
      refine (ih _).trans ?_
      rw [← List.append_assoc]
      exact List.Sublist.append_right (scanLines_ids_sublist limit f _ 0 tasks []) _

/-- Counterexample to claim C5 as stated: a scan of one document whose two
checklist lines carry the same explicit id marker assigns the id t1 to both
extracted tasks, so the ids of one scan are not pairwise distinct. -/
theorem claim5_counterexample :
    ¬ ((collectTasks 500 [dupFile]).map TaskData.id).Nodup := by
  decide

/-- Claim C5 (amended): the ids assigned by one scan are pairwise distinct
provided the documents' paths are pairwise distinct, the explicit id-marker
payloads of the scan are pairwise distinct, and no explicit id payload lies
in the derived-id namespace (starts with the five characters of "task-");
duplicate explicit markers do produce duplicate ids. -/
theorem claim5_ids_unique (limit : Nat) (files : List MDFile)
    (h1 : (files.map MDFile.path).Nodup)
    (h2 : (files.flatMap explicitIds).Nodup)
    (h3 : ∀ s ∈ files.flatMap explicitIds, s.data.take 5 ≠ "task-".data) :
    ((collectTasks limit files).map TaskData.id).Nodup := by
  have hsub := collect_ids_sublist limit files []
  simp only [List.map_nil, List.nil_append] at hsub
  exact (flatMap_fileIds_nodup files h1 h2 h3).sublist hsub

/-- Witness for C5 (amended) at a document carrying one explicit id and one
derived id. -/
theorem claim5_witness :
    ([goodFile].map MDFile.path).Nodup ∧
    ([goodFile].flatMap explicitIds).Nodup ∧
    (∀ s ∈ [goodFile].flatMap explicitIds, s.data.take 5 ≠ "task-".data) ∧
    ((collectTasks 500 [goodFile]).map TaskData.id).Nodup :=
  ⟨by decide, by decide, by decide,
    claim5_ids_unique 500 [goodFile] (by decide) (by decide) (by decide)⟩

/-- Witness for C6 at the sample collection and the dangling id "ghost". -/
theorem claim6_witness :
    (∀ u ∈ (Svg.rootTasks sampleTasks).flatMap flattenT, u.data.id ≠ "ghost") ∧
    (∀ u ∈ sampleTasks, u.data.id ≠ "ghost") ∧
    ((∀ l ∈ (Svg.processTasks ⟨true, true, false, []⟩ sampleTasks).links,
       l.type = LinkType.dependency → l.source ≠ "ghost") ∧
     (∀ l ∈ (Canvas.processTasks ⟨true, true, false, []⟩ sampleTasks).links,
       l.type = LinkType.dependency → l.source ≠ "ghost") ∧
     (∀ t : Task, (mkNode t).data.blockers = t.data.blockers)) :=
  ⟨by decide, by decide,
    claim6_dangling_blocker ⟨true, true, false, []⟩ sampleTasks
      ⟨true, true, false, []⟩ sampleTasks "ghost" (by decide) (by decide)⟩

end TG
